import Mathlib

/-!
Shallow embedding of `src/hikari.py`.

A Python string is a finite sequence of Unicode code points; we model a word
as a `List Char`.  Python `dict`s preserve key insertion order, and `hikari`
iterates over `dict.items()`, so a dictionary whose values are sets is
modelled as an insertion-ordered association list whose value lists carry no
duplicates (`set.add` is embedded as add-if-absent, `set.update` as repeated
add).  `set.remove` raises `KeyError` when the element is absent, so the
self-link removal loop of `relate_words` is embedded as an `Option`-valued
function: `none` models the `KeyError`.
-/

namespace Hikari

/-- A word: the sequence of code points of a Python string. -/
abbrev Word := List Char

/-- Conversion from a Lean string literal to a word. -/
def wd (s : String) : Word := s.data

/-- An insertion-ordered dictionary mapping keys to sets of words, the sets
being duplicate-free lists in insertion order. -/
abbrev Index (κ : Type) := List (κ × List Word)

/-- Python `set.add`: add an element to a set; adding a present element is a
no-op. -/
def setAdd (s : List Word) (x : Word) : List Word :=
  if x ∈ s then s else s ++ [x]

/-- Python `set.update`: add every element of `t` to `s`. -/
def setUnion (s : List Word) : List Word → List Word
  | [] => s
  | x :: t => setUnion (setAdd s x) t

/-- Reading `d[k]` for an association list; an absent key reads as the empty
set (callers that care distinguish the cases with `hasKey`). -/
def lookupIdx {κ : Type} [DecidableEq κ] : Index κ → κ → List Word
  | [], _ => []
  | (k, s) :: rest, c => if k = c then s else lookupIdx rest c

/-- Python `k in d`: whether `k` is a key of the dictionary. -/
def hasKey {κ : Type} [DecidableEq κ] : Index κ → κ → Bool
  | [], _ => false
  | (k, _) :: rest, c => k = c || hasKey rest c

/-- Python `d[k].add(w)` on a `defaultdict(set)`: update the entry of an
existing key in place, or append a new key (insertion order) with `{w}`. -/
def addToIndex {κ : Type} [DecidableEq κ] : Index κ → κ → Word → Index κ
  | [], c, w => [(c, [w])]
  | (k, s) :: rest, c, w =>
      if k = c then (k, setAdd s w) :: rest else (k, s) :: addToIndex rest c w

/-- Python `d[k].update(cs)` for a key `k` known to be present (in
`relate_words` the dictionary is built from the very word list that is then
iterated, so the key is always present; an absent key leaves `d` unchanged
here, a case the callers never reach). -/
def updateIdx {κ : Type} [DecidableEq κ] : Index κ → κ → List Word → Index κ
  | [], _, _ => []
  | (k, s) :: rest, c, cs =>
      if k = c then (k, setUnion s cs) :: rest else (k, s) :: updateIdx rest c cs

/-- Embedding of `has_kanji` (src/hikari.py lines 155-159):
`bool(word and re.search(r"[一-龯]", word))` — true iff the word is non-empty
and some character's code point lies in the inclusive range U+4E00 (一) to
U+9FAF (龯). -/
def has_kanji (w : Word) : Bool :=
  !w.isEmpty && w.any (fun c => 0x4E00 ≤ c.toNat && c.toNat ≤ 0x9FAF)

/-- Inner loop of `separate_words` (lines 179-183): for each character of the
word, in order, if it is a kanji add the word to that character's set. -/
def addWordChars (comps : Index Char) (w : Word) : List Char → Index Char
  | [] => comps
  | c :: rest =>
      addWordChars (if has_kanji [c] then addToIndex comps c w else comps) w rest

/-- Outer loop of `separate_words`: fold the inner loop over the word list. -/
def separateAux (comps : Index Char) : List Word → Index Char
  | [] => comps
  | w :: rest => separateAux (addWordChars comps w w) rest

/-- Embedding of `separate_words` (src/hikari.py lines 162-187): build the
component index mapping each kanji to the set of words containing it,
starting from an empty `defaultdict(set)`. -/
def separate_words (words : List Word) : Index Char :=
  separateAux [] words

/-- First-occurrence deduplication, with an accumulator. -/
def dedupAux {α : Type} [DecidableEq α] (acc : List α) : List α → List α
  | [] => acc
  | x :: rest => dedupAux (if x ∈ acc then acc else acc ++ [x]) rest

/-- The distinct elements of a list in order of first occurrence. -/
def dedupFirst {α : Type} [DecidableEq α] (l : List α) : List α :=
  dedupAux [] l

/-- Python `{word: set() for word in words}` (line 204): the distinct words
in first-occurrence order, each mapped to the empty set. -/
def initRelated (words : List Word) : Index Word :=
  (dedupFirst words).map (fun w => (w, ([] : List Word)))

/-- Inner loop of `relate_words` (lines 206-209): scan every
(kanji, compounds) item of the component index; when the kanji occurs in the
word, union the compounds into the word's set. -/
def applyComponents (d : Index Word) (word : Word) : Index Char → Index Word
  | [] => d
  | (kanji, compounds) :: rest =>
      applyComponents (if kanji ∈ word then updateIdx d word compounds else d)
        word rest

/-- Outer loop of `relate_words` (line 205): fold the inner loop over the
word list. -/
def relateAux (d : Index Word) (comps : Index Char) : List Word → Index Word
  | [] => d
  | w :: rest => relateAux (applyComponents d w comps) comps rest

/-- The self-link removal loop (lines 212-213):
`for word, rel_words in related_words.items(): rel_words.remove(word)`.
Python `set.remove` raises `KeyError` when the element is absent, so the
result is `none` exactly when some entry does not contain its own key. -/
def removeSelf : Index Word → Option (Index Word)
  | [] => some []
  | (w, s) :: rest =>
      if w ∈ s then
        match removeSelf rest with
        | some rest' => some ((w, s.filter (fun x => x ≠ w)) :: rest')
        | none => none
      else none

/-- The accumulated relation dictionary after the two loops of
`relate_words` (lines 204-209), before the self-link removal loop. -/
def preRelate (words : List Word) (comps : Index Char) : Index Word :=
  relateAux (initRelated words) comps words

/-- Embedding of `relate_words` (src/hikari.py lines 190-217). -/
def relate_words (words : List Word) (components : Index Char) :
    Option (Index Word) :=
  removeSelf (preRelate words components)

/-- Python string `≤` on words: lexicographic comparison by code point. -/
def wordLe : Word → Word → Bool
  | [], _ => true
  | _ :: _, [] => false
  | a :: as, b :: bs => if a = b then wordLe as bs else decide (a.toNat < b.toNat)

/-- Insert into a sorted list, keeping it sorted (stable). -/
def insertSorted (w : Word) : List Word → List Word
  | [] => [w]
  | x :: xs => if wordLe w x then w :: x :: xs else x :: insertSorted w xs

/-- Python `sorted` / `list.sort` on a list of strings: sort lexicographically
by code point. -/
def sortWords (l : List Word) : List Word :=
  l.foldr insertSorted []

/-- Embedding of the core of `main` (src/hikari.py lines 64-73): sort the
word list, build the component index and the relation index, then sort every
value set into a list; `none` models the uncaught `KeyError`. -/
def pipeline (words : List Word) :
    Option (Index Char × Index Word) :=
  let ws := sortWords words
  let comps := separate_words ws
  match relate_words ws comps with
  | none => none
  | some rel =>
      some (comps.map (fun p => (p.1, sortWords p.2)),
            rel.map (fun p => (p.1, sortWords p.2)))

/-! Basic lemmas on sets and indexes. -/

theorem mem_setAdd {s : List Word} {x y : Word} :
    x ∈ setAdd s y ↔ x ∈ s ∨ x = y := by
  unfold setAdd
  by_cases h : y ∈ s
  · simp only [if_pos h]
    constructor
    · exact fun hx => Or.inl hx
    · rintro (hx | rfl)
      · exact hx
      · exact h
  · simp [if_neg h]

theorem mem_setUnion {s t : List Word} {x : Word} :
    x ∈ setUnion s t ↔ x ∈ s ∨ x ∈ t := by
  induction t generalizing s with
  | nil => simp [setUnion]
  | cons y t ih => simp [setUnion, ih, mem_setAdd]; tauto

theorem lookupIdx_addToIndex_self {κ : Type} [DecidableEq κ]
    {d : Index κ} {c : κ} {w : Word} :
    lookupIdx (addToIndex d c w) c = setAdd (lookupIdx d c) w := by
  induction d with
  | nil => simp [addToIndex, lookupIdx, setAdd]
  | cons p rest ih =>
      obtain ⟨k, s⟩ := p
      by_cases h : k = c <;> simp [addToIndex, lookupIdx, h, ih]

theorem lookupIdx_addToIndex_other {κ : Type} [DecidableEq κ]
    {d : Index κ} {c c' : κ} {w : Word} (h : c' ≠ c) :
    lookupIdx (addToIndex d c w) c' = lookupIdx d c' := by
  have h2 : ¬ c = c' := fun hc => h hc.symm
  induction d with
  | nil => simp [addToIndex, lookupIdx, h2]
  | cons p rest ih =>
      obtain ⟨k, s⟩ := p
      by_cases hk : k = c
      · subst hk; simp [addToIndex, lookupIdx, h2]
      · simp [addToIndex, lookupIdx, hk, ih]

theorem hasKey_addToIndex {κ : Type} [DecidableEq κ]
    {d : Index κ} {c c' : κ} {w : Word} :
    hasKey (addToIndex d c w) c' = (hasKey d c' || decide (c = c')) := by
  induction d with
  | nil => simp [addToIndex, hasKey]
  | cons p rest ih =>
      obtain ⟨k, s⟩ := p
      by_cases hk : k = c
      · subst hk
        simp [addToIndex, hasKey]
        by_cases hc : k = c' <;> simp [hc]
      · simp [addToIndex, hasKey, hk, ih, Bool.or_assoc]

theorem lookupIdx_eq_nil_of_not_hasKey {κ : Type} [DecidableEq κ]
    {d : Index κ} {c : κ} (h : hasKey d c = false) : lookupIdx d c = [] := by
  induction d with
  | nil => simp [lookupIdx]
  | cons p rest ih =>
      obtain ⟨k, s⟩ := p
      simp [hasKey] at h
      simp [lookupIdx, h.1, ih h.2]

theorem hasKey_of_mem_lookupIdx {κ : Type} [DecidableEq κ]
    {d : Index κ} {c : κ} {x : Word} (h : x ∈ lookupIdx d c) :
    hasKey d c = true := by
  by_contra hk
  rw [lookupIdx_eq_nil_of_not_hasKey (Bool.eq_false_iff.mpr hk)] at h
  simp at h

theorem mem_of_hasKey {κ : Type} [DecidableEq κ]
    {d : Index κ} {c : κ} (h : hasKey d c = true) :
    (c, lookupIdx d c) ∈ d := by
  induction d with
  | nil => simp [hasKey] at h
  | cons p rest ih =>
      obtain ⟨k, s⟩ := p
      by_cases hk : k = c
      · subst hk; simp [lookupIdx]
      · simp [hasKey, hk] at h
        simp [lookupIdx, hk, ih h]

theorem hasKey_iff_mem_keys {κ : Type} [DecidableEq κ]
    {d : Index κ} {c : κ} :
    hasKey d c = true ↔ c ∈ d.map Prod.fst := by
  induction d with
  | nil => simp [hasKey]
  | cons p rest ih =>
      obtain ⟨k, s⟩ := p
      simp only [hasKey, List.map_cons, List.mem_cons, Bool.or_eq_true,
        decide_eq_true_eq, ih]
      constructor
      · rintro (h | h)
        · exact Or.inl h.symm
        · exact Or.inr h
      · rintro (h | h)
        · exact Or.inl h.symm
        · exact Or.inr h

theorem lookupIdx_of_mem_nodup {κ : Type} [DecidableEq κ]
    {d : Index κ} {c : κ} {s : List Word}
    (hn : (d.map Prod.fst).Nodup) (h : (c, s) ∈ d) :
    lookupIdx d c = s := by
  induction d with
  | nil => simp at h
  | cons p rest ih =>
      obtain ⟨k, t⟩ := p
      simp only [List.map_cons, List.nodup_cons] at hn
      rcases List.mem_cons.mp h with h' | h'
      · rw [Prod.mk.injEq] at h'
        obtain ⟨h1, h2⟩ := h'
        subst h1; subst h2
        simp [lookupIdx]
      · have hk : k ≠ c := by
          intro hkc; subst hkc
          exact hn.1 (List.mem_map_of_mem Prod.fst h')
        simp [lookupIdx, hk, ih hn.2 h']

theorem keys_updateIdx {κ : Type} [DecidableEq κ]
    {d : Index κ} {c : κ} {cs : List Word} :
    (updateIdx d c cs).map Prod.fst = d.map Prod.fst := by
  induction d with
  | nil => rfl
  | cons p rest ih =>
      obtain ⟨k, s⟩ := p
      by_cases hk : k = c <;> simp [updateIdx, hk, ih]

theorem hasKey_updateIdx {κ : Type} [DecidableEq κ]
    {d : Index κ} {c c' : κ} {cs : List Word} :
    hasKey (updateIdx d c cs) c' = hasKey d c' := by
  induction d with
  | nil => rfl
  | cons p rest ih =>
      obtain ⟨k, s⟩ := p
      by_cases hk : k = c <;> simp [updateIdx, hasKey, hk, ih]

theorem lookupIdx_updateIdx_self {κ : Type} [DecidableEq κ]
    {d : Index κ} {c : κ} {cs : List Word} (h : hasKey d c = true) :
    lookupIdx (updateIdx d c cs) c = setUnion (lookupIdx d c) cs := by
  induction d with
  | nil => simp [hasKey] at h
  | cons p rest ih =>
      obtain ⟨k, s⟩ := p
      by_cases hk : k = c
      · subst hk; simp [updateIdx, lookupIdx]
      · simp [hasKey, hk] at h
        simp [updateIdx, lookupIdx, hk, ih h]

theorem lookupIdx_updateIdx_other {κ : Type} [DecidableEq κ]
    {d : Index κ} {c c' : κ} {cs : List Word} (h : c' ≠ c) :
    lookupIdx (updateIdx d c cs) c' = lookupIdx d c' := by
  have h2 : ¬ c = c' := fun hc => h hc.symm
  induction d with
  | nil => rfl
  | cons p rest ih =>
      obtain ⟨k, s⟩ := p
      by_cases hk : k = c
      · subst hk; simp [updateIdx, lookupIdx, h2]
      · simp [updateIdx, lookupIdx, hk, ih]

/-! Characterization of `separate_words`. -/

theorem mem_lookupIdx_addWordChars {comps : Index Char} {w : Word}
    {chars : List Char} {c : Char} {x : Word} :
    x ∈ lookupIdx (addWordChars comps w chars) c ↔
      x ∈ lookupIdx comps c ∨ (has_kanji [c] = true ∧ c ∈ chars ∧ x = w) := by
  induction chars generalizing comps with
  | nil => simp [addWordChars]
  | cons c' rest ih =>
      rw [addWordChars, ih]
      by_cases hk : has_kanji [c'] = true
      · rw [if_pos hk]
        by_cases hc : c = c'
        · subst hc
          rw [lookupIdx_addToIndex_self]
          simp only [mem_setAdd, hk, true_and, List.mem_cons]
          tauto
        · rw [lookupIdx_addToIndex_other hc]
          simp only [List.mem_cons, hc, false_or]
      · rw [if_neg hk]
        have hk' : has_kanji [c'] = false := Bool.eq_false_iff.mpr hk
        by_cases hc : c = c'
        · subst hc; simp [hk']
        · simp only [List.mem_cons, hc, false_or]

theorem hasKey_addWordChars {comps : Index Char} {w : Word}
    {chars : List Char} {c : Char} :
    hasKey (addWordChars comps w chars) c = true ↔
      hasKey comps c = true ∨ (has_kanji [c] = true ∧ c ∈ chars) := by
  induction chars generalizing comps with
  | nil => simp [addWordChars]
  | cons c' rest ih =>
      rw [addWordChars, ih]
      by_cases hk : has_kanji [c'] = true
      · rw [if_pos hk, hasKey_addToIndex]
        by_cases hc : c = c'
        · subst hc; simp [hk]
        · have h2 : ¬ c' = c := fun hh => hc hh.symm
          simp only [List.mem_cons, hc, false_or, h2, decide_False,
            Bool.or_false]
      · rw [if_neg hk]
        have hk' : has_kanji [c'] = false := Bool.eq_false_iff.mpr hk
        by_cases hc : c = c'
        · subst hc; simp [hk']
        · simp only [List.mem_cons, hc, false_or]

theorem mem_lookupIdx_separateAux {comps : Index Char} {words : List Word}
    {c : Char} {x : Word} :
    x ∈ lookupIdx (separateAux comps words) c ↔
      x ∈ lookupIdx comps c ∨ (x ∈ words ∧ has_kanji [c] = true ∧ c ∈ x) := by
  induction words generalizing comps with
  | nil => simp [separateAux]
  | cons w rest ih =>
      rw [separateAux, ih, mem_lookupIdx_addWordChars]
      constructor
      · rintro ((h | ⟨h1, h2, rfl⟩) | ⟨h1, h2, h3⟩)
        · exact Or.inl h
        · exact Or.inr ⟨List.mem_cons_self _ _, h1, h2⟩
        · exact Or.inr ⟨List.mem_cons_of_mem _ h1, h2, h3⟩
      · rintro (h | ⟨h1, h2, h3⟩)
        · exact Or.inl (Or.inl h)
        · rcases List.mem_cons.mp h1 with rfl | h1'
          · exact Or.inl (Or.inr ⟨h2, h3, rfl⟩)
          · exact Or.inr ⟨h1', h2, h3⟩

theorem hasKey_separateAux {comps : Index Char} {words : List Word} {c : Char} :
    hasKey (separateAux comps words) c = true ↔
      hasKey comps c = true ∨ ∃ w ∈ words, has_kanji [c] = true ∧ c ∈ w := by
  induction words generalizing comps with
  | nil => simp [separateAux]
  | cons w rest ih =>
      rw [separateAux, ih, hasKey_addWordChars]
      constructor
      · rintro ((h | ⟨h1, h2⟩) | ⟨w', h1, h2, h3⟩)
        · exact Or.inl h
        · exact Or.inr ⟨w, List.mem_cons_self _ _, h1, h2⟩
        · exact Or.inr ⟨w', List.mem_cons_of_mem _ h1, h2, h3⟩
      · rintro (h | ⟨w', h1, h2, h3⟩)
        · exact Or.inl (Or.inl h)
        · rcases List.mem_cons.mp h1 with rfl | h1'
          · exact Or.inl (Or.inr ⟨h2, h3⟩)
          · exact Or.inr ⟨w', h1', h2, h3⟩

theorem mem_lookupIdx_separate {words : List Word} {c : Char} {x : Word} :
    x ∈ lookupIdx (separate_words words) c ↔
      x ∈ words ∧ has_kanji [c] = true ∧ c ∈ x := by
  rw [separate_words, mem_lookupIdx_separateAux]
  simp [lookupIdx]

theorem hasKey_separate {words : List Word} {c : Char} :
    hasKey (separate_words words) c = true ↔
      ∃ w ∈ words, has_kanji [c] = true ∧ c ∈ w := by
  rw [separate_words, hasKey_separateAux]
  simp [hasKey]

/-! Key lists of the component index are duplicate-free. -/

theorem keys_addToIndex {κ : Type} [DecidableEq κ]
    {d : Index κ} {c : κ} {w : Word} :
    (addToIndex d c w).map Prod.fst =
      if hasKey d c = true then d.map Prod.fst else d.map Prod.fst ++ [c] := by
  induction d with
  | nil => simp [addToIndex, hasKey]
  | cons p rest ih =>
      obtain ⟨k, s⟩ := p
      by_cases hk : k = c
      · subst hk; simp [addToIndex, hasKey]
      · simp only [addToIndex, hk, if_false, List.map_cons, hasKey,
          decide_eq_true_eq, ih]
        by_cases h2 : hasKey rest c = true <;> simp [h2, hk]

theorem nodupKeys_addToIndex {κ : Type} [DecidableEq κ]
    {d : Index κ} {c : κ} {w : Word}
    (hn : (d.map Prod.fst).Nodup) : ((addToIndex d c w).map Prod.fst).Nodup := by
  rw [keys_addToIndex]
  by_cases h : hasKey d c = true
  · simp [h, hn]
  · have hc : c ∉ d.map Prod.fst := fun hc => h (hasKey_iff_mem_keys.mpr hc)
    simp [h, List.nodup_append, hn, hc]

theorem nodupKeys_addWordChars {comps : Index Char} {w : Word}
    {chars : List Char} (hn : (comps.map Prod.fst).Nodup) :
    ((addWordChars comps w chars).map Prod.fst).Nodup := by
  induction chars generalizing comps with
  | nil => exact hn
  | cons c rest ih =>
      rw [addWordChars]
      by_cases hk : has_kanji [c] = true
      · rw [if_pos hk]; exact ih (nodupKeys_addToIndex hn)
      · rw [if_neg hk]; exact ih hn

theorem nodupKeys_separateAux {comps : Index Char} {words : List Word}
    (hn : (comps.map Prod.fst).Nodup) :
    ((separateAux comps words).map Prod.fst).Nodup := by
  induction words generalizing comps with
  | nil => exact hn
  | cons w rest ih => exact ih (nodupKeys_addWordChars hn)

theorem nodupKeys_separate {words : List Word} :
    ((separate_words words).map Prod.fst).Nodup :=
  nodupKeys_separateAux (by simp)

/-! Deduplication lemmas. -/

theorem mem_dedupAux {α : Type} [DecidableEq α] {acc l : List α} {x : α} :
    x ∈ dedupAux acc l ↔ x ∈ acc ∨ x ∈ l := by
  induction l generalizing acc with
  | nil => simp [dedupAux]
  | cons y rest ih =>
      rw [dedupAux, ih]
      by_cases h : y ∈ acc
      · simp only [if_pos h, List.mem_cons]
        constructor
        · rintro (h1 | h1) <;> tauto
        · rintro (h1 | rfl | h1)
          · tauto
          · exact Or.inl h
          · tauto
      · simp only [if_neg h, List.mem_append, List.mem_singleton,
          List.mem_cons]
        tauto

theorem mem_dedupFirst {α : Type} [DecidableEq α] {l : List α} {x : α} :
    x ∈ dedupFirst l ↔ x ∈ l := by
  rw [dedupFirst, mem_dedupAux]; simp

theorem nodup_dedupAux {α : Type} [DecidableEq α] {acc l : List α}
    (hn : acc.Nodup) : (dedupAux acc l).Nodup := by
  induction l generalizing acc with
  | nil => exact hn
  | cons y rest ih =>
      rw [dedupAux]
      by_cases h : y ∈ acc
      · rw [if_pos h]; exact ih hn
      · rw [if_neg h]
        exact ih (by simp [List.nodup_append, hn, h])

theorem nodup_dedupFirst {α : Type} [DecidableEq α] {l : List α} :
    (dedupFirst l).Nodup :=
  nodup_dedupAux List.nodup_nil

/-! Lemmas on dictionaries whose value depends only on the key. -/

theorem lookupIdx_map_pairs {l : List Word} {f : Word → List Word} {w : Word} :
    lookupIdx (l.map (fun v => (v, f v))) w = if w ∈ l then f w else [] := by
  induction l with
  | nil => simp [lookupIdx]
  | cons v rest ih =>
      by_cases h : v = w
      · subst h; simp [lookupIdx]
      · have h2 : ¬ w = v := fun hh => h hh.symm
        simp [lookupIdx, h, h2, ih]

theorem keys_map_pairs {l : List Word} {f : Word → List Word} :
    ((l.map (fun v => (v, f v))).map Prod.fst) = l := by
  induction l with
  | nil => rfl
  | cons v rest ih => simp only [List.map_cons, ih]

theorem hasKey_map_pairs {l : List Word} {f : Word → List Word} {w : Word} :
    hasKey (l.map (fun v => (v, f v))) w = true ↔ w ∈ l := by
  rw [hasKey_iff_mem_keys, keys_map_pairs]

theorem lookupIdx_initRelated {words : List Word} {w : Word} :
    lookupIdx (initRelated words) w = [] := by
  rw [initRelated, lookupIdx_map_pairs]
  split <;> rfl

theorem hasKey_initRelated {words : List Word} {w : Word} :
    hasKey (initRelated words) w = true ↔ w ∈ words := by
  rw [initRelated, hasKey_map_pairs, mem_dedupFirst]

theorem keys_initRelated {words : List Word} :
    (initRelated words).map Prod.fst = dedupFirst words := by
  rw [initRelated, keys_map_pairs]

/-! Facts about the `has_kanji` classifier. -/

theorem hasKey_eq_decide {κ : Type} [DecidableEq κ] {d : Index κ} {c : κ} :
    hasKey d c = decide (c ∈ d.map Prod.fst) := by
  induction d with
  | nil => simp [hasKey]
  | cons p rest ih =>
      obtain ⟨k, s⟩ := p
      by_cases h' : k = c
      · subst h'
        simp [hasKey, ih]
      · have h2 : ¬ c = k := fun hh => h' hh.symm
        simp [hasKey, ih, h', h2]

theorem bool_eq_of_true_iff {a b : Bool} (h : a = true ↔ b = true) :
    a = b := by
  cases a <;> cases b <;> simp_all

theorem has_kanji_iff_exists {w : Word} :
    has_kanji w = true ↔ ∃ c ∈ w, has_kanji [c] = true := by
  cases w with
  | nil => simp [has_kanji]
  | cons a as => simp [has_kanji, List.any_eq_true]

theorem has_kanji_of_mem {w : Word} {c : Char} (h1 : c ∈ w)
    (h2 : has_kanji [c] = true) : has_kanji w = true :=
  has_kanji_iff_exists.mpr ⟨c, h1, h2⟩

/-! Characterization of the accumulation loops of `relate_words`. -/

theorem keys_applyComponents {d : Index Word} {word : Word}
    {comps : Index Char} :
    (applyComponents d word comps).map Prod.fst = d.map Prod.fst := by
  induction comps generalizing d with
  | nil => rfl
  | cons p rest ih =>
      obtain ⟨kanji, compounds⟩ := p
      rw [applyComponents]
      by_cases h : kanji ∈ word
      · rw [if_pos h, ih, keys_updateIdx]
      · rw [if_neg h, ih]

theorem hasKey_applyComponents {d : Index Word} {word : Word}
    {comps : Index Char} {w : Word} :
    hasKey (applyComponents d word comps) w = hasKey d w := by
  rw [hasKey_eq_decide, hasKey_eq_decide, keys_applyComponents]

theorem mem_lookupIdx_applyComponents {d : Index Word} {word : Word}
    {comps : Index Char} {w' x : Word} (hk : hasKey d word = true) :
    x ∈ lookupIdx (applyComponents d word comps) w' ↔
      x ∈ lookupIdx d w' ∨
        (w' = word ∧ ∃ p ∈ comps, p.1 ∈ word ∧ x ∈ p.2) := by
  induction comps generalizing d with
  | nil => simp [applyComponents]
  | cons p rest ih =>
      obtain ⟨kanji, compounds⟩ := p
      rw [applyComponents]
      by_cases h : kanji ∈ word
      · rw [if_pos h]
        have hk2 : hasKey (updateIdx d word compounds) word = true := by
          rw [hasKey_updateIdx]; exact hk
        rw [ih hk2]
        by_cases hw : w' = word
        · subst hw
          rw [lookupIdx_updateIdx_self hk]
          simp only [mem_setUnion, eq_self_iff_true, true_and]
          constructor
          · rintro ((h1 | h1) | ⟨p', h2, h3, h4⟩)
            · exact Or.inl h1
            · exact Or.inr ⟨(kanji, compounds), List.mem_cons_self _ _, h, h1⟩
            · exact Or.inr ⟨p', List.mem_cons_of_mem _ h2, h3, h4⟩
          · rintro (h1 | ⟨p', h2, h3, h4⟩)
            · exact Or.inl (Or.inl h1)
            · rcases List.mem_cons.mp h2 with rfl | h2'
              · exact Or.inl (Or.inr h4)
              · exact Or.inr ⟨p', h2', h3, h4⟩
        · rw [lookupIdx_updateIdx_other hw]
          simp only [hw, false_and, or_false]
      · rw [if_neg h, ih hk]
        constructor
        · rintro (h1 | ⟨hww, p', h2, h3, h4⟩)
          · exact Or.inl h1
          · exact Or.inr ⟨hww, p', List.mem_cons_of_mem _ h2, h3, h4⟩
        · rintro (h1 | ⟨hww, p', h2, h3, h4⟩)
          · exact Or.inl h1
          · rcases List.mem_cons.mp h2 with rfl | h2'
            · exact absurd h3 h
            · exact Or.inr ⟨hww, p', h2', h3, h4⟩

theorem keys_relateAux {d : Index Word} {comps : Index Char}
    {words : List Word} :
    (relateAux d comps words).map Prod.fst = d.map Prod.fst := by
  induction words generalizing d with
  | nil => rfl
  | cons w rest ih => rw [relateAux, ih, keys_applyComponents]

theorem hasKey_relateAux {d : Index Word} {comps : Index Char}
    {words : List Word} {w : Word} :
    hasKey (relateAux d comps words) w = hasKey d w := by
  rw [hasKey_eq_decide, hasKey_eq_decide, keys_relateAux]

theorem mem_lookupIdx_relateAux {d : Index Word} {comps : Index Char}
    {words : List Word} {w' x : Word}
    (hk : ∀ w ∈ words, hasKey d w = true) :
    x ∈ lookupIdx (relateAux d comps words) w' ↔
      x ∈ lookupIdx d w' ∨
        (w' ∈ words ∧ ∃ p ∈ comps, p.1 ∈ w' ∧ x ∈ p.2) := by
  induction words generalizing d with
  | nil => simp [relateAux]
  | cons w rest ih =>
      rw [relateAux]
      have hkw : hasKey d w = true := hk w (List.mem_cons_self _ _)
      have hk' : ∀ u ∈ rest, hasKey (applyComponents d w comps) u = true := by
        intro u hu
        rw [hasKey_applyComponents]
        exact hk u (List.mem_cons_of_mem _ hu)
      rw [ih hk', mem_lookupIdx_applyComponents hkw]
      constructor
      · rintro ((h1 | ⟨rfl, h2⟩) | ⟨h1, h2⟩)
        · exact Or.inl h1
        · exact Or.inr ⟨List.mem_cons_self _ _, h2⟩
        · exact Or.inr ⟨List.mem_cons_of_mem _ h1, h2⟩
      · rintro (h1 | ⟨h1, h2⟩)
        · exact Or.inl (Or.inl h1)
        · rcases List.mem_cons.mp h1 with rfl | h1'
          · exact Or.inl (Or.inr ⟨rfl, h2⟩)
          · exact Or.inr ⟨h1', h2⟩

theorem keys_preRelate {words : List Word} {comps : Index Char} :
    (preRelate words comps).map Prod.fst = dedupFirst words := by
  rw [preRelate, keys_relateAux, keys_initRelated]

theorem hasKey_preRelate {words : List Word} {comps : Index Char} {w : Word} :
    hasKey (preRelate words comps) w = true ↔ w ∈ words := by
  rw [preRelate, hasKey_relateAux, hasKey_initRelated]

theorem nodupKeys_preRelate {words : List Word} {comps : Index Char} :
    ((preRelate words comps).map Prod.fst).Nodup := by
  rw [keys_preRelate]; exact nodup_dedupFirst

theorem mem_lookupIdx_preRelate {words : List Word} {comps : Index Char}
    {w x : Word} :
    x ∈ lookupIdx (preRelate words comps) w ↔
      w ∈ words ∧ ∃ p ∈ comps, p.1 ∈ w ∧ x ∈ p.2 := by
  rw [preRelate,
    mem_lookupIdx_relateAux (fun u hu => hasKey_initRelated.mpr hu)]
  simp [lookupIdx_initRelated]

/-! The self-link removal loop. -/

theorem removeSelf_isSome {d : Index Word} :
    (removeSelf d).isSome = true ↔ ∀ p ∈ d, p.1 ∈ p.2 := by
  induction d with
  | nil => simp [removeSelf]
  | cons p rest ih =>
      obtain ⟨w, s⟩ := p
      rw [removeSelf]
      by_cases h : w ∈ s
      · rw [if_pos h]
        cases hr : removeSelf rest with
        | some rest' =>
            constructor
            · intro _ p hp
              rcases List.mem_cons.mp hp with rfl | hp'
              · exact h
              · exact (ih.mp (by rw [hr]; rfl)) p hp'
            · intro _; rfl
        | none =>
            constructor
            · intro hh; simp at hh
            · intro hall
              have hs : (removeSelf rest).isSome = true :=
                ih.mpr (fun p hp => hall p (List.mem_cons_of_mem _ hp))
              rw [hr] at hs; simp at hs
      · rw [if_neg h]
        constructor
        · intro hh; simp at hh
        · intro hall
          exact absurd (hall (w, s) (List.mem_cons_self _ _)) h

theorem keys_removeSelf {d d' : Index Word} (h : removeSelf d = some d') :
    d'.map Prod.fst = d.map Prod.fst := by
  induction d generalizing d' with
  | nil => rw [removeSelf] at h; cases h; rfl
  | cons p rest ih =>
      obtain ⟨w, s⟩ := p
      rw [removeSelf] at h
      by_cases hw : w ∈ s
      · rw [if_pos hw] at h
        cases hr : removeSelf rest with
        | some rest' =>
            rw [hr] at h
            cases h
            simp [ih hr]
        | none => rw [hr] at h; cases h
      · rw [if_neg hw] at h; cases h

theorem lookupIdx_removeSelf {d d' : Index Word} {w : Word}
    (h : removeSelf d = some d') :
    lookupIdx d' w = (lookupIdx d w).filter (fun x => x ≠ w) := by
  induction d generalizing d' with
  | nil => rw [removeSelf] at h; cases h; rfl
  | cons p rest ih =>
      obtain ⟨u, s⟩ := p
      rw [removeSelf] at h
      by_cases hu : u ∈ s
      · rw [if_pos hu] at h
        cases hr : removeSelf rest with
        | some rest' =>
            rw [hr] at h
            cases h
            by_cases huw : u = w
            · subst huw; simp [lookupIdx]
            · simp [lookupIdx, huw, ih hr]
        | none => rw [hr] at h; cases h
      · rw [if_neg hu] at h; cases h

/-! Assembled characterizations of `relate_words`. -/

theorem relate_isSome_iff {words : List Word} :
    (relate_words words (separate_words words)).isSome = true ↔
      ∀ w ∈ words, has_kanji w = true := by
  rw [relate_words, removeSelf_isSome]
  constructor
  · intro hall w hw
    have hkey : hasKey (preRelate words (separate_words words)) w = true :=
      hasKey_preRelate.mpr hw
    have hw_self :
        w ∈ lookupIdx (preRelate words (separate_words words)) w :=
      hall _ (mem_of_hasKey hkey)
    rw [mem_lookupIdx_preRelate] at hw_self
    obtain ⟨-, p, hp, hpin, -⟩ := hw_self
    have hkeyc : hasKey (separate_words words) p.1 = true := by
      rw [hasKey_iff_mem_keys]
      exact List.mem_map_of_mem Prod.fst hp
    obtain ⟨w', hw', hkanji, hcw'⟩ := hasKey_separate.mp hkeyc
    exact has_kanji_of_mem hpin hkanji
  · intro hall p hp
    obtain ⟨w, s⟩ := p
    have hlook : lookupIdx (preRelate words (separate_words words)) w = s :=
      lookupIdx_of_mem_nodup nodupKeys_preRelate hp
    have hw : w ∈ words := by
      refine (@hasKey_preRelate words (separate_words words) w).mp ?_
      rw [hasKey_iff_mem_keys]
      exact List.mem_map_of_mem Prod.fst hp
    obtain ⟨c, hcw, hck⟩ := has_kanji_iff_exists.mp (hall w hw)
    have hmemc : w ∈ lookupIdx (separate_words words) c :=
      mem_lookupIdx_separate.mpr ⟨hw, hck, hcw⟩
    have hpair :=
      mem_of_hasKey (hasKey_of_mem_lookupIdx hmemc)
    show w ∈ s
    rw [← hlook, mem_lookupIdx_preRelate]
    exact ⟨hw, (c, lookupIdx (separate_words words) c), hpair, hcw, hmemc⟩

theorem exists_pair_sep_iff {words : List Word} {w x : Word} :
    (∃ p ∈ separate_words words, p.1 ∈ w ∧ x ∈ p.2) ↔
      ∃ c, c ∈ w ∧ has_kanji [c] = true ∧
        x ∈ lookupIdx (separate_words words) c := by
  constructor
  · rintro ⟨p, hp, h1, h2⟩
    obtain ⟨c, s⟩ := p
    have hlook : lookupIdx (separate_words words) c = s :=
      lookupIdx_of_mem_nodup nodupKeys_separate hp
    have hx : x ∈ lookupIdx (separate_words words) c := hlook ▸ h2
    exact ⟨c, h1, (mem_lookupIdx_separate.mp hx).2.1, hx⟩
  · rintro ⟨c, h1, h2, h3⟩
    exact ⟨(c, lookupIdx (separate_words words) c),
      mem_of_hasKey (hasKey_of_mem_lookupIdx h3), h1, h3⟩

theorem mem_lookupIdx_relate_final {words : List Word} {w x : Word}
    (h1 : ∀ u ∈ words, has_kanji u = true) :
    x ∈ lookupIdx ((relate_words words (separate_words words)).getD []) w ↔
      (x ≠ w ∧ w ∈ words ∧ ∃ c, c ∈ w ∧ has_kanji [c] = true ∧
        x ∈ lookupIdx (separate_words words) c) := by
  obtain ⟨r, hr⟩ :=
    Option.isSome_iff_exists.mp (relate_isSome_iff.mpr h1)
  rw [hr, Option.getD_some, lookupIdx_removeSelf hr]
  rw [List.mem_filter, mem_lookupIdx_preRelate]
  constructor
  · rintro ⟨⟨hw, hpair⟩, hne⟩
    exact ⟨by simpa using hne, hw, exists_pair_sep_iff.mp hpair⟩
  · rintro ⟨hne, hw, hc⟩
    exact ⟨⟨hw, exists_pair_sep_iff.mpr hc⟩, by simpa using hne⟩

/-! The spec's recommended relation-building strategy. -/

/-- The distinct logographic characters actually present in a word, in order
of first occurrence. -/
def kanjiChars (w : Word) : List Char :=
  dedupFirst (w.filter (fun c => has_kanji [c]))

/-- Union of the component-index entries of the given characters. -/
def unionComps (comps : Index Char) (acc : List Word) : List Char → List Word
  | [] => acc
  | c :: cs => unionComps comps (setUnion acc (lookupIdx comps c)) cs

/-- Modelled from the spec: the recommended relation-building strategy — for
each word, iterate only the distinct logographic characters actually present
in it, look each up directly in the component index, union the results, then
remove the word itself. -/
def relate_words_opt (words : List Word) (comps : Index Char) : Index Word :=
  (dedupFirst words).map
    (fun w =>
      (w, (unionComps comps [] (kanjiChars w)).filter (fun x => x ≠ w)))

theorem mem_unionComps {comps : Index Char} {acc : List Word}
    {cs : List Char} {x : Word} :
    x ∈ unionComps comps acc cs ↔
      x ∈ acc ∨ ∃ c ∈ cs, x ∈ lookupIdx comps c := by
  induction cs generalizing acc with
  | nil => simp [unionComps]
  | cons c rest ih =>
      rw [unionComps, ih]
      simp only [mem_setUnion, List.mem_cons]
      constructor
      · rintro ((h | h) | ⟨c', h1, h2⟩)
        · exact Or.inl h
        · exact Or.inr ⟨c, Or.inl rfl, h⟩
        · exact Or.inr ⟨c', Or.inr h1, h2⟩
      · rintro (h | ⟨c', (rfl | h1), h2⟩)
        · exact Or.inl (Or.inl h)
        · exact Or.inl (Or.inr h2)
        · exact Or.inr ⟨c', h1, h2⟩

theorem mem_kanjiChars {w : Word} {c : Char} :
    c ∈ kanjiChars w ↔ c ∈ w ∧ has_kanji [c] = true := by
  rw [kanjiChars, mem_dedupFirst, List.mem_filter]

theorem keys_relate_words_opt {words : List Word} {comps : Index Char} :
    (relate_words_opt words comps).map Prod.fst = dedupFirst words := by
  rw [relate_words_opt, keys_map_pairs]

theorem mem_lookupIdx_relate_words_opt {words : List Word}
    {comps : Index Char} {w x : Word} :
    x ∈ lookupIdx (relate_words_opt words comps) w ↔
      w ∈ words ∧ x ≠ w ∧ ∃ c, c ∈ w ∧ has_kanji [c] = true ∧
        x ∈ lookupIdx comps c := by
  rw [relate_words_opt, lookupIdx_map_pairs]
  by_cases h : w ∈ dedupFirst words
  · rw [if_pos h, List.mem_filter, mem_unionComps]
    have hw : w ∈ words := mem_dedupFirst.mp h
    constructor
    · rintro ⟨(h1 | ⟨c, hc1, hc2⟩), h2⟩
      · exact absurd h1 (List.not_mem_nil x)
      · obtain ⟨hcw, hck⟩ := mem_kanjiChars.mp hc1
        exact ⟨hw, by simpa using h2, c, hcw, hck, hc2⟩
    · rintro ⟨-, h2, c, hc1, hc2, hc3⟩
      exact ⟨Or.inr ⟨c, mem_kanjiChars.mpr ⟨hc1, hc2⟩, hc3⟩, by simpa using h2⟩
  · rw [if_neg h]
    rw [mem_dedupFirst] at h
    constructor
    · intro h1; exact absurd h1 (List.not_mem_nil x)
    · rintro ⟨hw, -⟩; exact absurd hw h

/-! The worked example of the module docstring (already pre-filtered). -/

/-- The pre-filtered word list of the worked example: 今朝, 今晩, 朝食,
食べる, 楽しい (かな and english! are excluded upstream by `has_kanji`). -/
def sampleWords : List Word :=
  [wd "今朝", wd "今晩", wd "朝食", wd "食べる", wd "楽しい"]

/-! Claims. -/

/-- C1, counterexample: on the word list [かな] — a word with no logographic
character, which upstream filtering would normally have removed —
`relate_words` does not return a relation index: the self-link removal
`rel_words.remove(word)` hits an empty set and raises `KeyError` (modelled
as `none`), so `relate_words` is not total over arbitrary string sequences
and removal of an absent element is an error, not a no-op. -/
theorem C1_counterexample :
    relate_words [wd "かな"] (separate_words [wd "かな"]) = none := by rfl

/-- C1, amended: `relate_words words (separate_words words)` completes and
returns a relation index exactly when every input word contains at least one
logographic character; whenever some word has none, the self-removal step
raises (the word is absent from its own accumulated set). -/
theorem C1_relate_total_iff_prefiltered (words : List Word) :
    (relate_words words (separate_words words)).isSome = true ↔
      ∀ w ∈ words, has_kanji w = true :=
  relate_isSome_iff

/-- C2, counterexample: on the worked example's word list the pipeline's
`components` entry for 朝 is [今朝, 朝食] — the words that actually contain
朝 — and not the spec's [今晩, 朝食] (今晩 does not contain 朝). -/
theorem C2_counterexample :
    (pipeline sampleWords).map (fun p => lookupIdx p.1 '朝') =
        some [wd "今朝", wd "朝食"] ∧
      [wd "今朝", wd "朝食"] ≠ [wd "今晩", wd "朝食"] := by
  exact ⟨rfl, by decide⟩

/-- C2, amended: the pipeline on the pre-filtered worked example yields
components = \x7b今:[今晩,今朝], 晩:[今晩], 朝:[今朝,朝食], 食:[朝食,食べる],
楽:[楽しい]\x7d and related_words = \x7b今晩:[今朝], 今朝:[今晩,朝食],
朝食:[今朝,食べる], 食べる:[朝食], 楽しい:[]\x7d, every value list sorted
lexicographically by code point (the only change forced by the
counterexample is the 朝 entry, [今朝,朝食] instead of [今晩,朝食]). -/
theorem C2_pipeline_sample :
    pipeline sampleWords =
      some ([('今', [wd "今晩", wd "今朝"]),
             ('晩', [wd "今晩"]),
             ('朝', [wd "今朝", wd "朝食"]),
             ('食', [wd "朝食", wd "食べる"]),
             ('楽', [wd "楽しい"])],
            [(wd "今晩", [wd "今朝"]),
             (wd "今朝", [wd "今晩", wd "朝食"]),
             (wd "朝食", [wd "今朝", wd "食べる"]),
             (wd "楽しい", ([] : List Word)),
             (wd "食べる", [wd "朝食"])]) := by rfl

/-- C3: under the pipeline's precondition (every word has a logographic
character), the relation set of a word `w` in the index produced by
`relate_words words (separate_words words)` holds exactly the members of the
union, over every logographic character `c` of `w`, of the component-index
entry of `c`, with `w` itself removed. -/
theorem C3_relation_value (words : List Word) (w x : Word)
    (h1 : ∀ u ∈ words, has_kanji u = true) (hw : w ∈ words) :
    x ∈ lookupIdx ((relate_words words (separate_words words)).getD []) w ↔
      (x ≠ w ∧ ∃ c, c ∈ w ∧ has_kanji [c] = true ∧
        x ∈ lookupIdx (separate_words words) c) := by
  rw [mem_lookupIdx_relate_final h1]
  tauto

/-- Witness for C3 at the worked example: 朝食 is related to 今朝. -/
theorem C3_witness :
    wd "朝食" ∈
        lookupIdx
          ((relate_words sampleWords (separate_words sampleWords)).getD [])
          (wd "今朝") ↔
      (wd "朝食" ≠ wd "今朝" ∧ ∃ c, c ∈ wd "今朝" ∧ has_kanji [c] = true ∧
        wd "朝食" ∈ lookupIdx (separate_words sampleWords) c) :=
  C3_relation_value sampleWords (wd "今朝") (wd "朝食") (by decide) (by decide)

/-- C4: membership in `separate_words words` is characterized exactly — a
word lies under character `c` iff it occurs in the input, `c` is
logographic and `c` occurs in the word; the key set is exactly the
logographic characters occurring in some input word; and a key's value list
is never empty. -/
theorem C4_separate_characterization (words : List Word) (c : Char)
    (w : Word) :
    (w ∈ lookupIdx (separate_words words) c ↔
        w ∈ words ∧ has_kanji [c] = true ∧ c ∈ w) ∧
      (hasKey (separate_words words) c = true ↔
        ∃ w' ∈ words, has_kanji [c] = true ∧ c ∈ w') ∧
      (lookupIdx (separate_words words) c = [] ↔
        hasKey (separate_words words) c = false) := by
  refine ⟨mem_lookupIdx_separate, hasKey_separate, ?_⟩
  constructor
  · intro h
    cases hcase : hasKey (separate_words words) c
    · rfl
    · obtain ⟨w', hw', hkj, hcw⟩ := hasKey_separate.mp hcase
      have hmem : w' ∈ lookupIdx (separate_words words) c :=
        mem_lookupIdx_separate.mpr ⟨hw', hkj, hcw⟩
      rw [h] at hmem
      exact absurd hmem (List.not_mem_nil w')
  · intro h
    exact lookupIdx_eq_nil_of_not_hasKey h

/-- C5: two distinct processed words sharing a logographic character are
related both ways in the index produced by `relate_words`. -/
theorem C5_symmetry (words : List Word) (x y : Word) (c : Char)
    (h1 : ∀ u ∈ words, has_kanji u = true)
    (hx : x ∈ words) (hy : y ∈ words) (hxy : x ≠ y)
    (hc : has_kanji [c] = true) (hcx : c ∈ x) (hcy : c ∈ y) :
    y ∈ lookupIdx ((relate_words words (separate_words words)).getD []) x ∧
      x ∈ lookupIdx ((relate_words words (separate_words words)).getD []) y := by
  constructor
  · rw [mem_lookupIdx_relate_final h1]
    exact ⟨fun hh => hxy hh.symm, hx, c, hcx, hc,
      mem_lookupIdx_separate.mpr ⟨hy, hc, hcy⟩⟩
  · rw [mem_lookupIdx_relate_final h1]
    exact ⟨hxy, hy, c, hcy, hc, mem_lookupIdx_separate.mpr ⟨hx, hc, hcx⟩⟩

/-- Witness for C5 at the worked example: 今朝 and 今晩 share 今 and are
mutually related. -/
theorem C5_witness :
    wd "今晩" ∈
        lookupIdx
          ((relate_words sampleWords (separate_words sampleWords)).getD [])
          (wd "今朝") ∧
      wd "今朝" ∈
        lookupIdx
          ((relate_words sampleWords (separate_words sampleWords)).getD [])
          (wd "今晩") :=
  C5_symmetry sampleWords (wd "今朝") (wd "今晩") '今' (by decide) (by decide)
    (by decide) (by decide) (by decide) (by decide) (by decide)

/-- C6: `has_kanji` returns true exactly on non-empty words containing a
character whose code point lies in the inclusive range U+4E00 to U+9FAF; on
a one-character word it decides logographic status of that character; kana,
Latin letters, digits, punctuation and the empty word are classified
non-logographic without error. -/
theorem C6_has_kanji_spec (w : Word) (c : Char) :
    (has_kanji w = true ↔
        w ≠ [] ∧ ∃ u ∈ w, 0x4E00 ≤ u.toNat ∧ u.toNat ≤ 0x9FAF) ∧
      (has_kanji [c] = true ↔ 0x4E00 ≤ c.toNat ∧ c.toNat ≤ 0x9FAF) ∧
      has_kanji (wd "かな") = false ∧ has_kanji (wd "english!") = false ∧
      has_kanji (wd "42") = false ∧ has_kanji [] = false := by
  refine ⟨?_, ?_, by decide, by decide, by decide, by decide⟩
  · cases w with
    | nil => simp [has_kanji]
    | cons a as => simp [has_kanji, List.any_eq_true]
  · simp [has_kanji]

/-- C7: on pre-filtered input with the pipeline's component index, the
implemented strategy (scan every component item and test the character
against the word) and the spec's recommended strategy (iterate the distinct
logographic characters of the word and look each up) produce identical
relation indexes: the same key list and the same value sets. -/
theorem C7_opt_equivalent (words : List Word) (w x : Word)
    (h1 : ∀ u ∈ words, has_kanji u = true) :
    ((relate_words words (separate_words words)).getD []).map Prod.fst =
        (relate_words_opt words (separate_words words)).map Prod.fst ∧
      (x ∈ lookupIdx ((relate_words words (separate_words words)).getD []) w ↔
        x ∈ lookupIdx (relate_words_opt words (separate_words words)) w) := by
  obtain ⟨r, hr⟩ := Option.isSome_iff_exists.mp (relate_isSome_iff.mpr h1)
  constructor
  · rw [hr, Option.getD_some, keys_removeSelf hr, keys_preRelate,
      keys_relate_words_opt]
  · rw [mem_lookupIdx_relate_final h1, mem_lookupIdx_relate_words_opt]
    tauto

/-- Witness for C7 at the worked example, evaluated at the pair
(今朝, 朝食). -/
theorem C7_witness :
    ((relate_words sampleWords (separate_words sampleWords)).getD []).map
          Prod.fst =
        (relate_words_opt sampleWords (separate_words sampleWords)).map
          Prod.fst ∧
      (wd "朝食" ∈
          lookupIdx
            ((relate_words sampleWords (separate_words sampleWords)).getD [])
            (wd "今朝") ↔
        wd "朝食" ∈
          lookupIdx (relate_words_opt sampleWords (separate_words sampleWords))
            (wd "今朝")) :=
  C7_opt_equivalent sampleWords (wd "今朝") (wd "朝食") (by decide)

/-- C8: permuting the input word sequence changes neither the key set of
`separate_words` nor any key's set of words. -/
theorem C8_perm_invariant (words words' : List Word) (c : Char) (w : Word)
    (hp : words.Perm words') :
    hasKey (separate_words words) c = hasKey (separate_words words') c ∧
      (w ∈ lookupIdx (separate_words words) c ↔
        w ∈ lookupIdx (separate_words words') c) := by
  constructor
  · apply bool_eq_of_true_iff
    rw [hasKey_separate, hasKey_separate]
    constructor
    · rintro ⟨u, hu, h⟩; exact ⟨u, hp.mem_iff.mp hu, h⟩
    · rintro ⟨u, hu, h⟩; exact ⟨u, hp.mem_iff.mpr hu, h⟩
  · rw [mem_lookupIdx_separate, mem_lookupIdx_separate, hp.mem_iff]

/-- Witness for C8: the worked example's word list against its reversal. -/
theorem C8_witness :
    hasKey (separate_words sampleWords) '朝' =
        hasKey (separate_words sampleWords.reverse) '朝' ∧
      (wd "朝食" ∈ lookupIdx (separate_words sampleWords) '朝' ↔
        wd "朝食" ∈ lookupIdx (separate_words sampleWords.reverse) '朝') :=
  C8_perm_invariant sampleWords sampleWords.reverse '朝' (wd "朝食")
    (by decide)

/-- C9: on pre-filtered input the key list of the relation index is
duplicate-free, and a word is a key exactly when it occurs in the input —
so duplicate input words yield a single key, and a word with an empty
relation set is still a key. -/
theorem C9_domain (words : List Word) (w : Word)
    (h1 : ∀ u ∈ words, has_kanji u = true) :
    ((((relate_words words (separate_words words)).getD []).map
        Prod.fst).Nodup) ∧
      (hasKey ((relate_words words (separate_words words)).getD []) w =
          true ↔ w ∈ words) := by
  obtain ⟨r, hr⟩ := Option.isSome_iff_exists.mp (relate_isSome_iff.mpr h1)
  rw [hr, Option.getD_some]
  constructor
  · rw [keys_removeSelf hr, keys_preRelate]
    exact nodup_dedupFirst
  · rw [hasKey_eq_decide, keys_removeSelf hr, keys_preRelate]
    simp [mem_dedupFirst]

/-- Witness for C9: a duplicated word (楽しい) and an isolated word with an
empty relation set. -/
theorem C9_witness :
    (((relate_words [wd "楽しい", wd "楽しい", wd "今朝"]
          (separate_words [wd "楽しい", wd "楽しい", wd "今朝"])).getD
        []).map Prod.fst).Nodup ∧
      (hasKey
          ((relate_words [wd "楽しい", wd "楽しい", wd "今朝"]
              (separate_words [wd "楽しい", wd "楽しい", wd "今朝"])).getD [])
          (wd "楽しい") = true ↔
        wd "楽しい" ∈ [wd "楽しい", wd "楽しい", wd "今朝"]) :=
  C9_domain [wd "楽しい", wd "楽しい", wd "今朝"] (wd "楽しい") (by decide)

/-- C10: on pre-filtered input, every word is a member of its own
accumulated relation set before the self-removal loop (it shares each of
its own logographic characters with itself), so the element removal never
operates on an absent element and `relate_words` completes. -/
theorem C10_self_membership (words : List Word) (w : Word)
    (h1 : ∀ u ∈ words, has_kanji u = true) (hw : w ∈ words) :
    w ∈ lookupIdx (preRelate words (separate_words words)) w ∧
      (relate_words words (separate_words words)).isSome = true := by
  refine ⟨?_, relate_isSome_iff.mpr h1⟩
  rw [mem_lookupIdx_preRelate]
  obtain ⟨c, hcw, hck⟩ := has_kanji_iff_exists.mp (h1 w hw)
  have hmemc : w ∈ lookupIdx (separate_words words) c :=
    mem_lookupIdx_separate.mpr ⟨hw, hck, hcw⟩
  exact ⟨hw, (c, lookupIdx (separate_words words) c),
    mem_of_hasKey (hasKey_of_mem_lookupIdx hmemc), hcw, hmemc⟩

/-- Witness for C10 at the worked example, at the word 食べる. -/
theorem C10_witness :
    wd "食べる" ∈
        lookupIdx (preRelate sampleWords (separate_words sampleWords))
          (wd "食べる") ∧
      (relate_words sampleWords (separate_words sampleWords)).isSome = true :=
  C10_self_membership sampleWords (wd "食べる") (by decide) (by decide)

end Hikari
